import Mathlib

/- Shallow embedding of django_qbe/utils.py: relation-graph construction
   (qbe_graph), tree extraction (qbe_tree with remove_leafs), forest assembly
   (qbe_forest), simple-path enumeration (find_all_paths) and autocomplete
   (autocomplete_graph), together with proofs of the behavioural properties
   claimed for them. -/

/-- An edge of the relation graph: (local field, neighbor entity id, neighbor
field), mirroring the tuples `(source, model, field)` built in `qbe_graph`. -/
abbrev Edge := String × String × String

/-- Adjacency structure: `graph` in the source is a dict mapping an entity id
to a list of edge triples; modelled as an association list in insertion
order.  The tree built by `qbe_tree` has the same shape. -/
abbrev Graph := List (String × List Edge)

/-- Dict lookup `graph[key]`, returning `none` where Python raises KeyError. -/
def lookupG : Graph → String → Option (List Edge)
  | [], _ => none
  | p :: rest, k => if p.1 = k then some p.2 else lookupG rest k

/-- Dict membership test `key in graph`. -/
def hasKey (g : Graph) (k : String) : Bool :=
  (lookupG g k).isSome

/-- Models `if key not in graph: graph[key] = []`. -/
def ensureKey (g : Graph) (k : String) : Graph :=
  if hasKey g k then g else g ++ [(k, [])]

/-- Models `if value not in graph[key]: graph[key].append(value)`.  On an
absent key this is a no-op; at every call site in the source the key is
already present. -/
def appendEdge : Graph → String → Edge → Graph
  | [], _, _ => []
  | p :: rest, k, e =>
    if p.1 = k then (p.1, if e ∈ p.2 then p.2 else p.2 ++ [e]) :: rest
    else p :: appendEdge rest k e

/-- Models `del graph[key]`. -/
def eraseKey (g : Graph) (k : String) : Graph :=
  g.filter (fun p => !(p.1 == k))

/-- Edge `e` is recorded under key `k`: some entry of the association list has
key `k` and contains `e`.  This is the membership notion all graph claims are
stated with; it entails in particular that `k` is a key of the graph. -/
def memEdge (g : Graph) (k : String) (e : Edge) : Prop :=
  ∃ p ∈ g, p.1 = k ∧ e ∈ p.2

instance (g : Graph) (k : String) (e : Edge) : Decidable (memEdge g k e) :=
  List.decidableBEx _ g

/-- Keys of the association list are pairwise distinct, as in a Python dict. -/
def NodupKeys (g : Graph) : Prop :=
  (g.map Prod.fst).Nodup

/- ------------------------------------------------------------------ -/
/- Schema data as consumed by qbe_graph (the relation dictionaries put
   together by qbe_models; qbe_graph reads only source and target). -/

/-- The `through` sub-dictionary of a relation target: intermediate entity of
a many-to-many relation (`get_target` in the source). -/
structure Through where
  name : String
  model : String
  field : String
  deriving DecidableEq

/-- A relation target as built by `get_target`: logical target entity plus the
optional `through` intermediate. -/
structure Target where
  name : String
  model : String
  field : String
  through : Option Through
  deriving DecidableEq

/-- A relation entry as built by `get_target_relation`; the `type` and
`arrows` components of the source dictionary are never read by `qbe_graph`
and are omitted. -/
structure Relation where
  source : String
  target : Target
  deriving DecidableEq

/-- The nested dictionary produced by `qbe_models`, flattened to association
lists: app title to model name to relation list. -/
abbrev Schema := List (String × List (String × List Relation))

/-- The neighbor id `model` computed for a relation: the through entity when
present, else the logical target. -/
def relModel (r : Relation) : String :=
  match r.target.through with
  | some th => th.name ++ "." ++ th.model
  | none => r.target.name ++ "." ++ r.target.model

/-- The forward edge `value` computed for a relation: routed through the
intermediate entity (and its field) when `through` is present. -/
def relValue (r : Relation) : Edge :=
  match r.target.through with
  | some th => (r.source, relModel r, th.field)
  | none => (r.source, relModel r, r.target.field)

/-- The mirror edge `target_value = (target["field"], key, source)` inserted
under `model` in undirected mode.  Note the first component is always the
logical target's field, even when the forward edge used the through field. -/
def relMirror (key : String) (r : Relation) : Edge :=
  (r.target.field, key, r.source)

/-- One iteration of the `for relation in w["relations"]` loop of
`qbe_graph`. -/
def processRelation (directed : Bool) (key : String) (g : Graph)
    (r : Relation) : Graph :=
  let g1 := appendEdge g key (relValue r)
  if directed then g1
  else appendEdge (ensureKey g1 (relModel r)) (relModel r) (relMirror key r)

/-- One iteration of the `for l, w in v.items()` loop of `qbe_graph`: ensure
the entity's key, fold its relations, and drop the key again if its edge list
stayed empty. -/
def processModel (directed : Bool) (app : String) (g : Graph)
    (m : String × List Relation) : Graph :=
  let key := app ++ "." ++ m.1
  let g2 := (m.2).foldl (processRelation directed key) (ensureKey g key)
  match lookupG g2 key with
  | some [] => eraseKey g2 key
  | _ => g2

/-- One iteration of the `for k, v in models.items()` loop of `qbe_graph`. -/
def processApp (directed : Bool) (g : Graph)
    (a : String × List (String × List Relation)) : Graph :=
  (a.2).foldl (processModel directed a.1) g

/-- `qbe_graph`: builds the relation graph from the schema catalog.  The
schema argument stands for the `qbe_models(admin_site)` dictionary, which is
produced by framework introspection outside this module. -/
def qbe_graph (schema : Schema) (directed : Bool) : Graph :=
  schema.foldl (processApp directed) []

/- ------------------------------------------------------------------ -/
/- Association-list lemmas. -/

theorem lookupG_eq_some_of_mem {g : Graph} {p : String × List Edge}
    (hn : NodupKeys g) (hp : p ∈ g) : lookupG g p.1 = some p.2 := by
  induction g with
  | nil => cases hp
  | cons q rest ih =>
    rcases List.mem_cons.mp hp with h | h
    · subst h
      simp [lookupG]
    · have hne : q.1 ≠ p.1 := by
        intro hE
        have : p.1 ∈ rest.map Prod.fst := List.mem_map_of_mem _ h
        have := (List.nodup_cons.mp hn).1
        exact this (hE ▸ List.mem_map_of_mem _ h)
      simp only [lookupG, if_neg hne]
      exact ih (List.nodup_cons.mp hn).2 h

theorem mem_of_lookupG_eq_some {g : Graph} {k : String} {v : List Edge}
    (h : lookupG g k = some v) : (k, v) ∈ g := by
  induction g with
  | nil => simp [lookupG] at h
  | cons q rest ih =>
    by_cases hq : q.1 = k
    · simp only [lookupG, if_pos hq] at h
      have hkv : (k, v) = q := by
        cases q
        simp_all
      rw [hkv]
      exact List.mem_cons_self _ _
    · simp only [lookupG, if_neg hq] at h
      exact List.mem_cons_of_mem _ (ih h)

theorem hasKey_iff {g : Graph} {k : String} :
    hasKey g k = true ↔ ∃ p ∈ g, p.1 = k := by
  induction g with
  | nil => simp [hasKey, lookupG]
  | cons q rest ih =>
    by_cases hq : q.1 = k
    · simp [hasKey, lookupG, hq]
    · simp only [hasKey, lookupG, if_neg hq] at *
      rw [ih]
      constructor
      · rintro ⟨p, hp, hk⟩
        exact ⟨p, List.mem_cons_of_mem _ hp, hk⟩
      · rintro ⟨p, hp, hk⟩
        rcases List.mem_cons.mp hp with h | h
        · exact absurd (h ▸ hk) hq
        · exact ⟨p, h, hk⟩

theorem hasKey_of_memEdge {g : Graph} {k : String} {e : Edge}
    (h : memEdge g k e) : hasKey g k = true := by
  rcases h with ⟨p, hp, hk, _⟩
  exact hasKey_iff.mpr ⟨p, hp, hk⟩

/- appendEdge lemmas -/

theorem appendEdge_map_fst (g : Graph) (k : String) (e : Edge) :
    (appendEdge g k e).map Prod.fst = g.map Prod.fst := by
  induction g with
  | nil => rfl
  | cons q rest ih =>
    by_cases hq : q.1 = k
    · simp [appendEdge, hq]
    · simp [appendEdge, hq, ih]

theorem nodupKeys_appendEdge {g : Graph} (k : String) (e : Edge)
    (h : NodupKeys g) : NodupKeys (appendEdge g k e) := by
  unfold NodupKeys
  rw [appendEdge_map_fst]
  exact h

theorem hasKey_iff_mem (g : Graph) (k : String) :
    hasKey g k = true ↔ k ∈ g.map Prod.fst := by
  rw [hasKey_iff, List.mem_map]

theorem hasKey_appendEdge (g : Graph) (k k2 : String) (e : Edge) :
    hasKey (appendEdge g k e) k2 = hasKey g k2 := by
  rw [Bool.eq_iff_iff, hasKey_iff_mem, hasKey_iff_mem, appendEdge_map_fst]

theorem memEdge_appendEdge_of {g : Graph} {k2 : String} {e2 : Edge}
    (k : String) (e : Edge) (h : memEdge g k2 e2) :
    memEdge (appendEdge g k e) k2 e2 := by
  rcases h with ⟨p, hp, hk, he⟩
  induction g with
  | nil => cases hp
  | cons q rest ih =>
    rcases List.mem_cons.mp hp with hh | hh
    · subst hh
      by_cases hq : p.1 = k
      · by_cases hmem : e ∈ p.2
        · exact ⟨(p.1, p.2), by simp [appendEdge, hq, hmem], hk, he⟩
        · exact ⟨(p.1, p.2 ++ [e]), by simp [appendEdge, hq, hmem], hk,
            List.mem_append_left _ he⟩
      · exact ⟨p, by simp [appendEdge, hq], hk, he⟩
    · by_cases hq : q.1 = k
      · exact ⟨p, by simp [appendEdge, hq, List.mem_cons_of_mem, hh], hk, he⟩
      · rcases ih hh with ⟨p2, hp2, hk2, he2⟩
        exact ⟨p2, by simp [appendEdge, hq, List.mem_cons_of_mem, hp2], hk2, he2⟩

theorem memEdge_appendEdge_self {g : Graph} {k : String} (e : Edge)
    (h : hasKey g k = true) : memEdge (appendEdge g k e) k e := by
  induction g with
  | nil => simp [hasKey, lookupG] at h
  | cons q rest ih =>
    by_cases hq : q.1 = k
    · by_cases hmem : e ∈ q.2
      · exact ⟨(q.1, q.2), by simp [appendEdge, hq, hmem], hq, hmem⟩
      · exact ⟨(q.1, q.2 ++ [e]), by simp [appendEdge, hq, hmem], hq,
          List.mem_append_right _ (by simp)⟩
    · simp only [hasKey, lookupG, if_neg hq] at h
      rcases ih h with ⟨p, hp, hk, he⟩
      exact ⟨p, by simp [appendEdge, hq, List.mem_cons_of_mem, hp], hk, he⟩

theorem memEdge_appendEdge_elim {g : Graph} {k k2 : String} {e e2 : Edge}
    (h : memEdge (appendEdge g k e) k2 e2) :
    memEdge g k2 e2 ∨ (k2 = k ∧ e2 = e) := by
  rcases h with ⟨p, hp, hk, he⟩
  induction g with
  | nil => cases hp
  | cons q rest ih =>
    by_cases hq : q.1 = k
    · simp only [appendEdge, if_pos hq] at hp
      rcases List.mem_cons.mp hp with hh | hh
      · by_cases hmem : e ∈ q.2
        · simp only [if_pos hmem] at hh
          subst hh
          exact Or.inl ⟨q, List.mem_cons_self _ _, hk, he⟩
        · simp only [if_neg hmem] at hh
          subst hh
          simp only at he hk
          rcases List.mem_append.mp he with h2 | h2
          · exact Or.inl ⟨q, List.mem_cons_self _ _, hk, h2⟩
          · simp only [List.mem_singleton] at h2
            exact Or.inr ⟨hk ▸ hq.symm ▸ rfl, h2⟩
      · exact Or.inl ⟨p, List.mem_cons_of_mem _ hh, hk, he⟩
    · simp only [appendEdge, if_neg hq] at hp
      rcases List.mem_cons.mp hp with hh | hh
      · subst hh
        exact Or.inl ⟨p, List.mem_cons_self _ _, hk, he⟩
      · rcases ih hh with h2 | h2
        · rcases h2 with ⟨p2, hp2, hk2, he2⟩
          exact Or.inl ⟨p2, List.mem_cons_of_mem _ hp2, hk2, he2⟩
        · exact Or.inr h2

/- ensureKey lemmas -/

theorem hasKey_ensureKey_self (g : Graph) (k : String) :
    hasKey (ensureKey g k) k = true := by
  unfold ensureKey
  by_cases h : hasKey g k
  · simp [h]
  · simp only [h, if_neg]
    rw [hasKey_iff_mem]
    simp

theorem hasKey_ensureKey_of {g : Graph} {k2 : String} (k : String)
    (h : hasKey g k2 = true) : hasKey (ensureKey g k) k2 = true := by
  unfold ensureKey
  by_cases hk : hasKey g k
  · simpa [hk]
  · simp only [hk, if_neg, Bool.false_eq_true, not_false_iff]
    rw [hasKey_iff_mem] at h ⊢
    simp [h]

theorem memEdge_ensureKey_iff {g : Graph} {k k2 : String} {e : Edge} :
    memEdge (ensureKey g k) k2 e ↔ memEdge g k2 e := by
  unfold ensureKey
  by_cases hk : hasKey g k
  · simp [hk]
  · simp only [hk, Bool.false_eq_true, if_neg, not_false_iff]
    constructor
    · rintro ⟨p, hp, hfst, he⟩
      rcases List.mem_append.mp hp with h | h
      · exact ⟨p, h, hfst, he⟩
      · simp only [List.mem_singleton] at h
        subst h
        cases he
    · rintro ⟨p, hp, hfst, he⟩
      exact ⟨p, List.mem_append_left _ hp, hfst, he⟩

theorem nodupKeys_ensureKey {g : Graph} (k : String)
    (h : NodupKeys g) : NodupKeys (ensureKey g k) := by
  unfold ensureKey
  by_cases hk : hasKey g k
  · simpa [hk]
  · simp only [hk, Bool.false_eq_true, if_neg, not_false_iff]
    unfold NodupKeys at *
    rw [List.map_append]
    simp only [List.map_cons, List.map_nil]
    rw [List.nodup_append]
    refine ⟨h, List.nodup_singleton _, ?_⟩
    intro a ha hb
    simp only [List.mem_singleton] at hb
    subst hb
    rw [hasKey_iff_mem] at hk
    exact hk ha

/- eraseKey lemmas -/

theorem memEdge_eraseKey_elim {g : Graph} {k k2 : String} {e : Edge}
    (h : memEdge (eraseKey g k) k2 e) : memEdge g k2 e := by
  rcases h with ⟨p, hp, hfst, he⟩
  exact ⟨p, List.mem_of_mem_filter hp, hfst, he⟩

theorem memEdge_eraseKey_of {g : Graph} {k k2 : String} {e : Edge}
    (hn : NodupKeys g) (hk : lookupG g k = some [])
    (h : memEdge g k2 e) : memEdge (eraseKey g k) k2 e := by
  rcases h with ⟨p, hp, hfst, he⟩
  refine ⟨p, ?_, hfst, he⟩
  apply List.mem_filter.mpr
  refine ⟨hp, ?_⟩
  simp only [Bool.not_eq_eq_eq_not, Bool.not_true, beq_eq_false_iff_ne, ne_eq]
  intro hpk
  have := lookupG_eq_some_of_mem hn hp
  rw [hpk, hk] at this
  have : p.2 = [] := by injection this with h2; exact h2.symm
  rw [this] at he
  cases he

theorem nodupKeys_eraseKey {g : Graph} (k : String)
    (h : NodupKeys g) : NodupKeys (eraseKey g k) := by
  unfold NodupKeys at *
  have hsub : (eraseKey g k).map Prod.fst |>.Sublist (g.map Prod.fst) :=
    List.Sublist.map _ (List.filter_sublist g)
  exact List.Nodup.sublist hsub h

theorem length_eraseKey_lt {g : Graph} {k : String}
    (h : hasKey g k = true) : (eraseKey g k).length < g.length := by
  rw [hasKey_iff] at h
  rcases h with ⟨p, hp, hk⟩
  unfold eraseKey
  rw [List.length_filter_lt_length_iff_exists]
  refine ⟨p, hp, ?_⟩
  simp [hk]

theorem length_eraseKey_le (g : Graph) (k : String) :
    (eraseKey g k).length ≤ g.length :=
  List.length_filter_le _ g

theorem hasKey_eraseKey_of {g : Graph} {k k2 : String}
    (hne : k2 ≠ k) (h : hasKey g k2 = true) :
    hasKey (eraseKey g k) k2 = true := by
  rw [hasKey_iff] at h ⊢
  rcases h with ⟨p, hp, hk⟩
  refine ⟨p, List.mem_filter.mpr ⟨hp, ?_⟩, hk⟩
  simp [hk, hne]

/- ------------------------------------------------------------------ -/
/- Edge symmetry of the undirected graph (claim C1). -/

/-- The graph is edge-symmetric: whenever an entry for entity `A` records an
edge `(f, B, g)`, then `B` is a key of the graph and its list records the
mirror `(g, A, f)`. -/
def SymmProp (g : Graph) : Prop :=
  ∀ p ∈ g, ∀ e ∈ p.2, memEdge g e.2.1 (e.2.2, p.1, e.1)

instance (g : Graph) : Decidable (SymmProp g) := by
  unfold SymmProp
  infer_instance

theorem symmProp_mem {g : Graph} (h : SymmProp g) {k : String} {e : Edge}
    (hme : memEdge g k e) : memEdge g e.2.1 (e.2.2, k, e.1) := by
  rcases hme with ⟨p, hp, hfst, he⟩
  have := h p hp e he
  rwa [hfst] at this

theorem symmProp_of_mem {g : Graph}
    (h : ∀ k e, memEdge g k e → memEdge g e.2.1 (e.2.2, k, e.1)) :
    SymmProp g := by
  intro p hp e he
  exact h p.1 e ⟨p, hp, rfl, he⟩

theorem symmProp_ensureKey {g : Graph} (k : String) (hs : SymmProp g) :
    SymmProp (ensureKey g k) :=
  symmProp_of_mem fun _ _ hme =>
    memEdge_ensureKey_iff.mpr (symmProp_mem hs (memEdge_ensureKey_iff.mp hme))

theorem symmProp_eraseKey {g : Graph} {k : String} (hn : NodupKeys g)
    (hk : lookupG g k = some []) (hs : SymmProp g) :
    SymmProp (eraseKey g k) :=
  symmProp_of_mem fun _ _ hme =>
    memEdge_eraseKey_of hn hk (symmProp_mem hs (memEdge_eraseKey_elim hme))

/-- A relation is field-coherent when its through intermediate (if any) has
the same key-field name as the logical target.  Exactly in this case the
mirror edge inserted by `qbe_graph` matches the forward edge. -/
def coherentRel (r : Relation) : Bool :=
  match r.target.through with
  | some th => th.field == r.target.field
  | none => true

theorem relValue_coherent {r : Relation} (h : coherentRel r = true) :
    relValue r = (r.source, relModel r, r.target.field) := by
  unfold coherentRel at h
  unfold relValue
  cases hth : r.target.through with
  | none => rfl
  | some th =>
    rw [hth] at h
    simp only [beq_iff_eq] at h
    simp [h]

/-- Generic preservation of a predicate along a left fold. -/
theorem foldl_preserve {α : Type} (P : Graph → Prop) (f : Graph → α → Graph)
    (l : List α) (h : ∀ x ∈ l, ∀ b, P b → P (f b x)) {g : Graph} (hg : P g) :
    P (l.foldl f g) := by
  induction l generalizing g with
  | nil => exact hg
  | cons x xs ih =>
    exact ih (fun y hy b hb => h y (List.mem_cons_of_mem _ hy) b hb)
      (h x (List.mem_cons_self _ _) g hg)

theorem processRelation_inv {g : Graph} {key : String} {r : Relation}
    (hcoh : coherentRel r = true) (hn : NodupKeys g) (hs : SymmProp g)
    (hk : hasKey g key = true) :
    NodupKeys (processRelation false key g r) ∧
      SymmProp (processRelation false key g r) ∧
      hasKey (processRelation false key g r) key = true := by
  have hval := relValue_coherent hcoh
  have hexp : processRelation false key g r =
      appendEdge (ensureKey (appendEdge g key (relValue r)) (relModel r))
        (relModel r) (relMirror key r) := by
    simp [processRelation]
  rw [hexp]
  refine ⟨?_, ?_, ?_⟩
  · exact nodupKeys_appendEdge _ _
      (nodupKeys_ensureKey _ (nodupKeys_appendEdge _ _ hn))
  · apply symmProp_of_mem
    intro k2 e hme
    rcases memEdge_appendEdge_elim hme with h1 | ⟨hkm, hetv⟩
    · rcases memEdge_appendEdge_elim (memEdge_ensureKey_iff.mp h1) with
        h2 | ⟨hkk, hev⟩
      · apply memEdge_appendEdge_of
        apply memEdge_ensureKey_iff.mpr
        apply memEdge_appendEdge_of
        exact symmProp_mem hs h2
      · rw [hkk, hev, hval]
        show memEdge _ (relModel r) (relMirror key r)
        exact memEdge_appendEdge_self _ (hasKey_ensureKey_self _ _)
    · rw [hkm, hetv]
      show memEdge _ key (r.source, relModel r, r.target.field)
      rw [← hval]
      apply memEdge_appendEdge_of
      apply memEdge_ensureKey_iff.mpr
      exact memEdge_appendEdge_self _ hk
  · rw [hasKey_appendEdge]
    apply hasKey_ensureKey_of
    rw [hasKey_appendEdge]
    exact hk

theorem processModel_inv {g : Graph} {app : String}
    {m : String × List Relation}
    (hcoh : ∀ r ∈ m.2, coherentRel r = true)
    (hn : NodupKeys g) (hs : SymmProp g) :
    NodupKeys (processModel false app g m) ∧
      SymmProp (processModel false app g m) := by
  simp only [processModel]
  have hbase : NodupKeys (ensureKey g (app ++ "." ++ m.1)) ∧
      SymmProp (ensureKey g (app ++ "." ++ m.1)) ∧
      hasKey (ensureKey g (app ++ "." ++ m.1)) (app ++ "." ++ m.1) = true :=
    ⟨nodupKeys_ensureKey _ hn, symmProp_ensureKey _ hs, hasKey_ensureKey_self _ _⟩
  have hfold := foldl_preserve
    (fun b => NodupKeys b ∧ SymmProp b ∧ hasKey b (app ++ "." ++ m.1) = true)
    (processRelation false (app ++ "." ++ m.1)) m.2
    (fun r hr b hb => processRelation_inv (hcoh r hr) hb.1 hb.2.1 hb.2.2)
    hbase
  split
  · exact ⟨nodupKeys_eraseKey _ hfold.1,
      symmProp_eraseKey hfold.1 (by assumption) hfold.2.1⟩
  · exact ⟨hfold.1, hfold.2.1⟩

theorem processApp_inv {g : Graph}
    {a : String × List (String × List Relation)}
    (hcoh : ∀ m ∈ a.2, ∀ r ∈ m.2, coherentRel r = true)
    (hn : NodupKeys g) (hs : SymmProp g) :
    NodupKeys (processApp false g a) ∧ SymmProp (processApp false g a) :=
  foldl_preserve (fun b => NodupKeys b ∧ SymmProp b)
    (processModel false a.1) a.2
    (fun m hm _ hb => processModel_inv (hcoh m hm) hb.1 hb.2) ⟨hn, hs⟩

/-- Every through relation of the schema names the same key field for the
through entity as for the logical target. -/
def CoherentSchema (s : Schema) : Prop :=
  ∀ a ∈ s, ∀ m ∈ a.2, ∀ r ∈ m.2, coherentRel r = true

instance (s : Schema) : Decidable (CoherentSchema s) := by
  unfold CoherentSchema
  infer_instance

theorem qbe_graph_nodup_symm {s : Schema} (hcoh : CoherentSchema s) :
    NodupKeys (qbe_graph s false) ∧ SymmProp (qbe_graph s false) := by
  unfold qbe_graph
  exact foldl_preserve (fun b => NodupKeys b ∧ SymmProp b)
    (processApp false) s
    (fun a ha b hb => processApp_inv (hcoh a ha) hb.1 hb.2)
    ⟨List.nodup_nil, by intro p hp; cases hp⟩

/- ------------------------------------------------------------------ -/
/- Monotonicity: qbe_graph never discards a recorded edge (used for C2). -/

theorem memEdge_processRelation_of {g : Graph} {k : String} {e : Edge}
    (d : Bool) (key : String) (r : Relation) (h : memEdge g k e) :
    memEdge (processRelation d key g r) k e := by
  unfold processRelation
  cases d with
  | true => simpa using memEdge_appendEdge_of _ _ h
  | false =>
    simp only [Bool.false_eq_true, if_neg, not_false_iff]
    exact memEdge_appendEdge_of _ _
      (memEdge_ensureKey_iff.mpr (memEdge_appendEdge_of _ _ h))

theorem nodupKeys_processRelation {g : Graph} (d : Bool) (key : String)
    (r : Relation) (h : NodupKeys g) :
    NodupKeys (processRelation d key g r) := by
  unfold processRelation
  cases d with
  | true => simpa using nodupKeys_appendEdge _ _ h
  | false =>
    simp only [Bool.false_eq_true, if_neg, not_false_iff]
    exact nodupKeys_appendEdge _ _
      (nodupKeys_ensureKey _ (nodupKeys_appendEdge _ _ h))

theorem hasKey_processRelation_of {g : Graph} {k2 : String} (d : Bool)
    (key : String) (r : Relation) (h : hasKey g k2 = true) :
    hasKey (processRelation d key g r) k2 = true := by
  unfold processRelation
  cases d with
  | true => simpa [hasKey_appendEdge] using h
  | false =>
    simp only [Bool.false_eq_true, if_neg, not_false_iff]
    rw [hasKey_appendEdge]
    exact hasKey_ensureKey_of _ (by rwa [hasKey_appendEdge])

theorem nodupKeys_processModel {g : Graph} (d : Bool) (app : String)
    (m : String × List Relation) (h : NodupKeys g) :
    NodupKeys (processModel d app g m) := by
  simp only [processModel]
  have hfold := foldl_preserve NodupKeys (processRelation d (app ++ "." ++ m.1))
    m.2 (fun r _ _ hb => nodupKeys_processRelation d _ r hb)
    (nodupKeys_ensureKey (g := g) (app ++ "." ++ m.1) h)
  split
  · exact nodupKeys_eraseKey _ hfold
  · exact hfold

theorem memEdge_processModel_of {g : Graph} {k : String} {e : Edge}
    (d : Bool) (app : String) (m : String × List Relation)
    (hn : NodupKeys g) (h : memEdge g k e) :
    memEdge (processModel d app g m) k e := by
  simp only [processModel]
  have hfold := foldl_preserve (fun b => NodupKeys b ∧ memEdge b k e)
    (processRelation d (app ++ "." ++ m.1)) m.2
    (fun r _ _ hb => ⟨nodupKeys_processRelation d _ r hb.1,
      memEdge_processRelation_of d _ r hb.2⟩)
    ⟨nodupKeys_ensureKey (g := g) (app ++ "." ++ m.1) hn,
      memEdge_ensureKey_iff (g := g) (k := app ++ "." ++ m.1) |>.mpr h⟩
  split
  · exact memEdge_eraseKey_of hfold.1 (by assumption) hfold.2
  · exact hfold.2

theorem nodupKeys_processApp {g : Graph} (d : Bool)
    (a : String × List (String × List Relation)) (h : NodupKeys g) :
    NodupKeys (processApp d g a) :=
  foldl_preserve NodupKeys (processModel d a.1) a.2
    (fun m _ _ hb => nodupKeys_processModel d _ m hb) h

theorem memEdge_processApp_of {g : Graph} {k : String} {e : Edge} (d : Bool)
    (a : String × List (String × List Relation))
    (hn : NodupKeys g) (h : memEdge g k e) :
    memEdge (processApp d g a) k e :=
  (foldl_preserve (fun b => NodupKeys b ∧ memEdge b k e)
    (processModel d a.1) a.2
    (fun m _ _ hb => ⟨nodupKeys_processModel d _ m hb.1,
      memEdge_processModel_of d _ m hb.1 hb.2⟩) ⟨hn, h⟩).2

theorem processModel_adds {g : Graph} (d : Bool) (app : String)
    {m : String × List Relation} {r : Relation}
    (hn : NodupKeys g) (hr : r ∈ m.2) :
    memEdge (processModel d app g m) (app ++ "." ++ m.1) (relValue r) ∧
      (d = false →
        memEdge (processModel d app g m) (relModel r)
          (relMirror (app ++ "." ++ m.1) r)) := by
  obtain ⟨l1, l2, hsplit⟩ := List.append_of_mem hr
  simp only [processModel]
  rw [hsplit, List.foldl_append, List.foldl_cons]
  have hpre := foldl_preserve
    (fun b => NodupKeys b ∧ hasKey b (app ++ "." ++ m.1) = true)
    (processRelation d (app ++ "." ++ m.1)) l1
    (fun r2 _ _ hb => ⟨nodupKeys_processRelation d _ r2 hb.1,
      hasKey_processRelation_of d _ r2 hb.2⟩)
    ⟨nodupKeys_ensureKey (g := g) (app ++ "." ++ m.1) hn,
      hasKey_ensureKey_self g (app ++ "." ++ m.1)⟩
  have hmid : NodupKeys (processRelation d (app ++ "." ++ m.1)
        (List.foldl (processRelation d (app ++ "." ++ m.1))
          (ensureKey g (app ++ "." ++ m.1)) l1) r) ∧
      memEdge (processRelation d (app ++ "." ++ m.1)
        (List.foldl (processRelation d (app ++ "." ++ m.1))
          (ensureKey g (app ++ "." ++ m.1)) l1) r)
        (app ++ "." ++ m.1) (relValue r) ∧
      (d = false →
        memEdge (processRelation d (app ++ "." ++ m.1)
          (List.foldl (processRelation d (app ++ "." ++ m.1))
            (ensureKey g (app ++ "." ++ m.1)) l1) r)
          (relModel r) (relMirror (app ++ "." ++ m.1) r)) := by
    refine ⟨nodupKeys_processRelation d _ r hpre.1, ?_, ?_⟩
    · unfold processRelation
      cases d with
      | true => simpa using memEdge_appendEdge_self _ hpre.2
      | false =>
        simp only [Bool.false_eq_true, if_neg, not_false_iff]
        exact memEdge_appendEdge_of _ _ (memEdge_ensureKey_iff.mpr
          (memEdge_appendEdge_self _ hpre.2))
    · intro hd
      subst hd
      unfold processRelation
      simp only [Bool.false_eq_true, if_neg, not_false_iff]
      exact memEdge_appendEdge_self _ (hasKey_ensureKey_self _ _)
  have hfold := foldl_preserve
    (fun b => NodupKeys b ∧ memEdge b (app ++ "." ++ m.1) (relValue r) ∧
      (d = false → memEdge b (relModel r) (relMirror (app ++ "." ++ m.1) r)))
    (processRelation d (app ++ "." ++ m.1)) l2
    (fun r2 _ _ hb => ⟨nodupKeys_processRelation d _ r2 hb.1,
      memEdge_processRelation_of d _ r2 hb.2.1,
      fun hd => memEdge_processRelation_of d _ r2 (hb.2.2 hd)⟩)
    hmid
  split
  · exact ⟨memEdge_eraseKey_of hfold.1 (by assumption) hfold.2.1,
      fun hd => memEdge_eraseKey_of hfold.1 (by assumption) (hfold.2.2 hd)⟩
  · exact hfold.2

theorem qbe_graph_keeps_relation {s : Schema} {d : Bool}
    {a : String × List (String × List Relation)}
    {m : String × List Relation} {r : Relation}
    (ha : a ∈ s) (hm : m ∈ a.2) (hr : r ∈ m.2) :
    memEdge (qbe_graph s d) (a.1 ++ "." ++ m.1) (relValue r) ∧
      (d = false →
        memEdge (qbe_graph s d) (relModel r)
          (relMirror (a.1 ++ "." ++ m.1) r)) := by
  unfold qbe_graph
  obtain ⟨s1, s2, hs⟩ := List.append_of_mem ha
  rw [hs, List.foldl_append, List.foldl_cons]
  have hpre : NodupKeys (List.foldl (processApp d) [] s1) :=
    foldl_preserve NodupKeys (processApp d) s1
      (fun a2 _ _ hb => nodupKeys_processApp d a2 hb) List.nodup_nil
  have happ : NodupKeys (processApp d (List.foldl (processApp d) [] s1) a) ∧
      memEdge (processApp d (List.foldl (processApp d) [] s1) a)
        (a.1 ++ "." ++ m.1) (relValue r) ∧
      (d = false →
        memEdge (processApp d (List.foldl (processApp d) [] s1) a)
          (relModel r) (relMirror (a.1 ++ "." ++ m.1) r)) := by
    unfold processApp
    obtain ⟨m1, m2, hmsplit⟩ := List.append_of_mem hm
    rw [hmsplit, List.foldl_append, List.foldl_cons]
    have hpre2 : NodupKeys (List.foldl (processModel d a.1)
        (List.foldl (processApp d) [] s1) m1) :=
      foldl_preserve NodupKeys (processModel d a.1) m1
        (fun m3 _ _ hb => nodupKeys_processModel d _ m3 hb) hpre
    have hadds := processModel_adds d a.1 hpre2 hr
    exact foldl_preserve
      (fun b => NodupKeys b ∧ memEdge b (a.1 ++ "." ++ m.1) (relValue r) ∧
        (d = false →
          memEdge b (relModel r) (relMirror (a.1 ++ "." ++ m.1) r)))
      (processModel d a.1) m2
      (fun m3 _ _ hb => ⟨nodupKeys_processModel d _ m3 hb.1,
        memEdge_processModel_of d _ m3 hb.1 hb.2.1,
        fun hd => memEdge_processModel_of d _ m3 hb.1 (hb.2.2 hd)⟩)
      ⟨nodupKeys_processModel d _ m hpre2, hadds.1, hadds.2⟩
  exact (foldl_preserve
    (fun b => NodupKeys b ∧ memEdge b (a.1 ++ "." ++ m.1) (relValue r) ∧
      (d = false →
        memEdge b (relModel r) (relMirror (a.1 ++ "." ++ m.1) r)))
    (processApp d) s2
    (fun a2 _ _ hb => ⟨nodupKeys_processApp d a2 hb.1,
      memEdge_processApp_of d a2 hb.1 hb.2.1,
      fun hd => memEdge_processApp_of d a2 hb.1 (hb.2.2 hd)⟩)
    happ).2

/- ------------------------------------------------------------------ -/
/- Concrete schemas used as witnesses and counterexamples. -/

/-- A many-to-many relation whose through entity and logical target share the
key field name "id" (the common Django situation). -/
def relStudentCourse : Relation :=
  { source := "courses",
    target := { name := "App", model := "Course", field := "id",
                through := some { name := "App", model := "Enrollment",
                                  field := "id" } } }

/-- Schema with one coherent many-to-many relation. -/
def schemaCoherent : Schema :=
  [("App", [("Student", [relStudentCourse]), ("Course", [])])]

/-- A many-to-many relation routed through an intermediate whose key field
("cid") differs from the logical target's key field ("bid"). -/
def relThroughMismatch : Relation :=
  { source := "members",
    target := { name := "T", model := "B", field := "bid",
                through := some { name := "T", model := "C",
                                  field := "cid" } } }

/-- Schema exposing the through/target key-field mismatch. -/
def schemaThroughMismatch : Schema := [("App", [("A", [relThroughMismatch])])]

/-- A relation whose target entity "Ext.B" is not an entity of the catalog. -/
def relDangling : Relation :=
  { source := "r",
    target := { name := "Ext", model := "B", field := "id", through := none } }

/-- Catalog containing only "App.A", whose single relation dangles. -/
def schemaDangling : Schema := [("App", [("A", [relDangling])])]

/- ------------------------------------------------------------------ -/
/- Claim C1. -/

/-- Claim C1 (amended): in undirected mode the graph built by `qbe_graph` is
edge-symmetric — every edge `(f, B, g)` recorded for `A` has `B` as a graph
key whose list records the mirror `(g, A, f)` — provided every many-to-many
through relation names the same key field for the through entity as for its
logical target.  (As stated the claim fails: the mirror inserted under the
through entity carries the logical target's key field, not the through
entity's; see the counterexample.) -/
theorem qbe_graph_undirected_symmetric (s : Schema)
    (h : CoherentSchema s) : SymmProp (qbe_graph s false) :=
  (qbe_graph_nodup_symm h).2

/-- Witness for C1's amended theorem at a concrete coherent schema with a
many-to-many through relation. -/
theorem qbe_graph_undirected_symmetric_witness :
    CoherentSchema schemaCoherent ∧ SymmProp (qbe_graph schemaCoherent false) :=
  ⟨by decide, qbe_graph_undirected_symmetric schemaCoherent (by decide)⟩

/-- Counterexample to claim C1 as stated: with a through entity whose key
field ("cid") differs from the target's ("bid"), the built graph records
("members", "T.C", "cid") under "App.A" but the mirror under "T.C" is
("bid", "App.A", "members"), not ("cid", "App.A", "members") — the graph is
not edge-symmetric. -/
theorem qbe_graph_symmetry_counterexample :
    ¬ SymmProp (qbe_graph schemaThroughMismatch false) := by decide

/- ------------------------------------------------------------------ -/
/- Claim C2. -/

/-- Claim C2 (amended): graph building cannot fail — `qbe_graph` is a total
function and no `DanglingReferenceError` (or any error) exists in the code.
A relation whose target entity is absent from the catalog is neither
rejected nor dropped: its forward edge is recorded under the source entity,
and in undirected mode the (possibly missing) neighbor entity becomes a
graph key holding the mirror edge. -/
theorem qbe_graph_dangling_reference_kept {s : Schema} {d : Bool}
    {a : String × List (String × List Relation)}
    {m : String × List Relation} {r : Relation}
    (ha : a ∈ s) (hm : m ∈ a.2) (hr : r ∈ m.2) :
    memEdge (qbe_graph s d) (a.1 ++ "." ++ m.1) (relValue r) ∧
      (d = false →
        memEdge (qbe_graph s d) (relModel r)
          (relMirror (a.1 ++ "." ++ m.1) r)) :=
  qbe_graph_keeps_relation ha hm hr

/-- Witness for C2's amended theorem at the dangling schema. -/
theorem qbe_graph_dangling_reference_kept_witness :
    memEdge (qbe_graph schemaDangling false) ("App" ++ "." ++ "A")
        (relValue relDangling) ∧
      (false = false →
        memEdge (qbe_graph schemaDangling false) (relModel relDangling)
          (relMirror ("App" ++ "." ++ "A") relDangling)) :=
  @qbe_graph_dangling_reference_kept schemaDangling false
    ("App", [("A", [relDangling])]) ("A", [relDangling]) relDangling
    (by decide) (by decide) (by decide)

/-- Counterexample to claim C2 as stated: on a catalog whose only entity has
a relation to the absent entity "Ext.B", graph building returns normally and
the dangling target even becomes a graph key — no error is raised and the
relation is not dropped. -/
theorem qbe_graph_dangling_no_error :
    qbe_graph schemaDangling false =
      [("App.A", [("r", "Ext.B", "id")]), ("Ext.B", [("id", "App.A", "r")])] := by
  decide

/- ------------------------------------------------------------------ -/
/- find_all_paths (claim C3).  This function expects its graph argument as
   a dict of per-field neighbor dicts; each entry of the inner list models
   one item of `graph[start].items()` as `(source_field, (node,
   target_field))`, which coincides with the Edge triple shape. -/

/-- All entity ids mentioned anywhere in the graph (keys and neighbors);
every node a path can ever reach is drawn from this list, which bounds the
recursion of `find_all_paths`. -/
def pathNodes (g : Graph) : List String :=
  g.flatMap (fun p => p.1 :: p.2.map (fun e => e.2.1))

theorem mem_pathNodes_of_lookup {g : Graph} {start : String}
    {edges : List Edge} {e : Edge} (hl : lookupG g start = some edges)
    (he : e ∈ edges) : e.2.1 ∈ pathNodes g := by
  have hmem := mem_of_lookupG_eq_some hl
  unfold pathNodes
  rw [List.mem_flatMap]
  exact ⟨(start, edges), hmem, List.mem_cons_of_mem _ (List.mem_map_of_mem _ he)⟩

theorem sdiff_card_append_lt {S : Finset String} {l : List String} {v : String}
    (hv : v ∈ S) (hnv : v ∉ l) :
    (S \ (l ++ [v]).toFinset).card < (S \ l.toFinset).card := by
  apply Finset.card_lt_card
  have hsub : S \ (l ++ [v]).toFinset ⊆ S \ l.toFinset := by
    apply Finset.sdiff_subset_sdiff (Finset.Subset.refl S)
    intro x hx
    rw [List.mem_toFinset] at hx
    rw [List.mem_toFinset]
    exact List.mem_append_left _ hx
  refine (Finset.ssubset_iff_of_subset hsub).mpr ⟨v, ?_, ?_⟩
  · rw [Finset.mem_sdiff, List.mem_toFinset]
    exact ⟨hv, hnv⟩
  · rw [Finset.mem_sdiff]
    intro hcontra
    apply hcontra.2
    rw [List.mem_toFinset]
    exact List.mem_append_right _ (List.mem_singleton_self _)

/-- `find_all_paths`: enumerate simple paths from `start` to `finish`.  The
accumulated `path` is extended functionally (`path = path + [start]` builds
a fresh list in the source), and a neighbor already on the path is skipped.
The `List.attach` is proof plumb for termination and does not change the
computation (see `find_all_paths_eq`). -/
def find_all_paths (g : Graph) (start finish : String) (path : List String) :
    List (List String) :=
  if start = finish then [path ++ [start]]
  else
    match hl : lookupG g start with
    | none => []
    | some edges =>
      edges.attach.flatMap (fun ep =>
        if ep.1.2.1 ∈ path ++ [start] then []
        else find_all_paths g ep.1.2.1 finish (path ++ [start]))
termination_by ((pathNodes g).toFinset \ (path ++ [start]).toFinset).card
decreasing_by
  rename_i hmem
  exact sdiff_card_append_lt
    (List.mem_toFinset.mpr (mem_pathNodes_of_lookup hl ep.2)) hmem

/-- Attach-free unfolding of `find_all_paths`, matching the source text. -/
theorem find_all_paths_eq (g : Graph) (start finish : String)
    (path : List String) :
    find_all_paths g start finish path =
      if start = finish then [path ++ [start]]
      else
        match lookupG g start with
        | none => []
        | some edges =>
          edges.flatMap (fun e =>
            if e.2.1 ∈ path ++ [start] then []
            else find_all_paths g e.2.1 finish (path ++ [start])) := by
  rw [find_all_paths]
  by_cases h : start = finish
  · simp [h]
  · simp only [if_neg h]
    cases hl : lookupG g start with
    | none => rfl
    | some edges =>
      dsimp only
      conv_rhs => rw [← List.attach_map_subtype_val edges]
      rw [List.flatMap_map]

/-- Any result of `find_all_paths` on a duplicate-free accumulator not yet
containing `start` is duplicate-free. -/
theorem find_all_paths_sound (g : Graph) (start finish : String)
    (path : List String) :
    path.Nodup → start ∉ path →
      ∀ p ∈ find_all_paths g start finish path, p.Nodup := by
  induction start, finish, path using find_all_paths.induct g with
  | case1 finish path =>
    intro hnodup hnot p hp
    rw [find_all_paths_eq] at hp
    simp at hp
    subst hp
    rw [List.nodup_append]
    exact ⟨hnodup, List.nodup_singleton _, by
      intro a ha hb
      rw [List.mem_singleton] at hb
      exact hnot (hb ▸ ha)⟩
  | case2 start finish path hne hl =>
    intro _ _ p hp
    rw [find_all_paths_eq] at hp
    simp [if_neg hne, hl] at hp
  | case3 start finish path hne edges hl ih =>
    intro hnodup hnot p hp
    rw [find_all_paths_eq] at hp
    simp only [if_neg hne, hl, List.mem_flatMap] at hp
    rcases hp with ⟨e, he, hpe⟩
    by_cases hmem : e.2.1 ∈ path ++ [start]
    · rw [if_pos hmem] at hpe
      cases hpe
    · rw [if_neg hmem] at hpe
      have hnodup2 : (path ++ [start]).Nodup := by
        rw [List.nodup_append]
        exact ⟨hnodup, List.nodup_singleton _, by
          intro a ha hb
          rw [List.mem_singleton] at hb
          exact hnot (hb ▸ ha)⟩
      exact ih ⟨e, he⟩ hmem hnodup2 hmem p hpe

/-- Claim C3: `find_all_paths g a a` returns exactly the singleton path
`[a]` for every graph; every returned path is simple (no repeated entity);
and for distinct endpoints a start with no outgoing edges (absent from the
graph, or present with an empty edge dict) yields no paths.  (The
distinctness proviso in the last part is forced by the first: when `a = b`
the base case fires before edges are consulted and `[[a]]` is returned even
from an edgeless start.) -/
theorem find_all_paths_spec :
    (∀ (g : Graph) (a : String), find_all_paths g a a [] = [[a]]) ∧
    (∀ (g : Graph) (a b : String), ∀ p ∈ find_all_paths g a b [], p.Nodup) ∧
    (∀ (g : Graph) (a b : String), a ≠ b →
      (lookupG g a = none ∨ lookupG g a = some []) →
      find_all_paths g a b [] = []) := by
  refine ⟨?_, ?_, ?_⟩
  · intro g a
    rw [find_all_paths_eq]
    simp
  · intro g a b p hp
    exact find_all_paths_sound g a b [] List.nodup_nil (List.not_mem_nil a) p hp
  · intro g a b hne hl
    rw [find_all_paths_eq]
    rcases hl with h | h <;> simp [if_neg hne, h]

/-- Witness graph for C3: two nodes joined by one (mirrored) edge. -/
def fapWitnessGraph : Graph :=
  [("A", [("f", "B", "g")]), ("B", [("g", "A", "f")])]

/-- Witness for C3: the three parts of `find_all_paths_spec` applied at the
concrete graph `fapWitnessGraph`. -/
theorem find_all_paths_spec_witness :
    find_all_paths fapWitnessGraph "A" "A" [] = [["A"]] ∧
    List.Nodup ["A", "B"] ∧
    find_all_paths fapWitnessGraph "C" "A" [] = [] := by
  refine ⟨find_all_paths_spec.1 fapWitnessGraph "A", ?_, ?_⟩
  · apply find_all_paths_spec.2.1 fapWitnessGraph "A" "B" ["A", "B"]
    have h : find_all_paths fapWitnessGraph "A" "B" [] = [["A", "B"]] := by
      rw [find_all_paths_eq]
      simp [lookupG]
      rw [find_all_paths_eq]
      simp
    rw [h]
    exact List.mem_singleton_self _
  · exact find_all_paths_spec.2.2 fapWitnessGraph "C" "A" (by decide)
      (Or.inl (by decide))

/- ------------------------------------------------------------------ -/
/- remove_leafs (claim C8). -/

/-- `get_leafs`: keys of tree entries with fewer than two recorded edges
that are not members of the required node list. -/
def get_leafs (tree : Graph) (nodes : List String) : List String :=
  (tree.filter (fun p => decide (p.2.length < 2) && decide (p.1 ∉ nodes))).map
    Prod.fst

/-- Models the inner loop of `delete_edge_leafs` on one node's edge list:
the source iterates the list while calling `remove` on it, so after each
removal the element that slid into the current position is skipped (kept
unexamined).  Tree edge lists are built duplicate-free, so `remove` takes
out exactly the current element. -/
def pyRemoveScan (leaf : String) : List Edge → List Edge
  | [] => []
  | [e] => if e.2.1 = leaf then [] else [e]
  | e :: f :: rest =>
    if e.2.1 = leaf then f :: pyRemoveScan leaf rest
    else e :: pyRemoveScan leaf (f :: rest)

/-- `delete_edge_leafs`: drop (most) edges pointing at the leaf from every
node's list, then delete the leaf's own entry. -/
def delete_edge_leafs (tree : Graph) (leaf : String) : Graph :=
  eraseKey (tree.map (fun p => (p.1, pyRemoveScan leaf p.2))) leaf

/-- One pass of the pruning loop body:
`for node in leafs: if node in tree: delete_edge_leafs(tree, node)`. -/
def deleteLeafsPass (tree : Graph) (leafs : List String) : Graph :=
  leafs.foldl
    (fun t leaf => if hasKey t leaf then delete_edge_leafs t leaf else t) tree

theorem pyRemoveScan_subset {leaf : String} :
    ∀ {l : List Edge} {e : Edge}, e ∈ pyRemoveScan leaf l → e ∈ l := by
  intro l
  induction l using pyRemoveScan.induct leaf with
  | case1 =>
    intro e h
    cases h
  | case2 e hc =>
    intro e2 h
    unfold pyRemoveScan at h
    rw [if_pos hc] at h
    cases h
  | case3 e hc =>
    intro e2 h
    unfold pyRemoveScan at h
    rw [if_neg hc] at h
    exact h
  | case4 e f rest hc ih =>
    intro e2 h
    unfold pyRemoveScan at h
    rw [if_pos hc] at h
    rcases List.mem_cons.mp h with h2 | h2
    · exact h2 ▸ List.mem_cons_of_mem _ (List.mem_cons_self _ _)
    · exact List.mem_cons_of_mem _ (List.mem_cons_of_mem _ (ih h2))
  | case5 e f rest hc ih =>
    intro e2 h
    unfold pyRemoveScan at h
    rw [if_neg hc] at h
    rcases List.mem_cons.mp h with h2 | h2
    · exact h2 ▸ List.mem_cons_self _ _
    · exact List.mem_cons_of_mem _ (ih h2)

theorem map_scan_fst (tree : Graph) (leaf : String) :
    (tree.map (fun p => (p.1, pyRemoveScan leaf p.2))).map Prod.fst =
      tree.map Prod.fst := by
  rw [List.map_map]
  rfl

theorem length_delete_edge_leafs_le (tree : Graph) (leaf : String) :
    (delete_edge_leafs tree leaf).length ≤ tree.length := by
  unfold delete_edge_leafs
  calc (eraseKey (tree.map fun p => (p.1, pyRemoveScan leaf p.2)) leaf).length
      ≤ (tree.map fun p => (p.1, pyRemoveScan leaf p.2)).length :=
        length_eraseKey_le _ _
    _ = tree.length := List.length_map _ _

theorem length_delete_edge_leafs_lt {tree : Graph} {leaf : String}
    (h : hasKey tree leaf = true) :
    (delete_edge_leafs tree leaf).length < tree.length := by
  unfold delete_edge_leafs
  have hk : hasKey (tree.map fun p => (p.1, pyRemoveScan leaf p.2)) leaf = true := by
    rw [hasKey_iff_mem, map_scan_fst]
    rw [hasKey_iff_mem] at h
    exact h
  calc (eraseKey (tree.map fun p => (p.1, pyRemoveScan leaf p.2)) leaf).length
      < (tree.map fun p => (p.1, pyRemoveScan leaf p.2)).length :=
        length_eraseKey_lt hk
    _ = tree.length := List.length_map _ _

theorem length_deleteLeafsPass_le (leafs : List String) (tree : Graph) :
    (deleteLeafsPass tree leafs).length ≤ tree.length := by
  induction leafs generalizing tree with
  | nil => exact Nat.le_refl _
  | cons l rest ih =>
    unfold deleteLeafsPass
    rw [List.foldl_cons]
    by_cases hk : hasKey tree l
    · simp only [hk, if_true]
      exact Nat.le_trans (ih _) (length_delete_edge_leafs_le _ _)
    · simp only [hk, Bool.false_eq_true, if_false]
      exact ih _

theorem length_deleteLeafsPass_lt {tree : Graph} {l : String}
    (rest : List String) (hk : hasKey tree l = true) :
    (deleteLeafsPass tree (l :: rest)).length < tree.length := by
  unfold deleteLeafsPass
  rw [List.foldl_cons]
  simp only [hk, if_true]
  exact Nat.lt_of_le_of_lt (length_deleteLeafsPass_le rest _)
    (length_delete_edge_leafs_lt hk)

theorem get_leafs_mem_hasKey {tree : Graph} {nodes : List String} {x : String}
    (h : x ∈ get_leafs tree nodes) : hasKey tree x = true := by
  unfold get_leafs at h
  rw [List.mem_map] at h
  rcases h with ⟨p, hp, hfst⟩
  exact hasKey_iff.mpr ⟨p, List.mem_of_mem_filter hp, hfst⟩

/-- `remove_leafs`: the pruning loop.  In the source the guard is
`while leafs or iterations > len(tree) ^ 2`; `^` is bitwise exclusive-or and
`iterations` is only ever incremented by zero, so the second disjunct reads
`0 > len(tree) XOR 2` and never holds — the loop is gated purely by
leaf-set emptiness. -/
def remove_leafs (tree : Graph) (nodes : List String) : Graph :=
  if get_leafs tree nodes ≠ [] ∨ 0 > Nat.xor tree.length 2 then
    remove_leafs (deleteLeafsPass tree (get_leafs tree nodes)) nodes
  else tree
termination_by tree.length
decreasing_by
  rename_i hcond
  rcases hcond with hleafs | habs
  · rcases hl : get_leafs tree nodes with _ | ⟨l, rest⟩
    · exact absurd hl hleafs
    · exact length_deleteLeafsPass_lt rest
        (get_leafs_mem_hasKey (hl ▸ List.mem_cons_self l rest))
  · exact absurd habs (Nat.not_lt_zero _)

/-- The pruning loop exits only when a pass finds no further leaves: the
returned tree has no entry of degree < 2 outside the required node list. -/
theorem remove_leafs_fixpoint (tree : Graph) (nodes : List String) :
    get_leafs (remove_leafs tree nodes) nodes = [] := by
  induction tree, nodes using remove_leafs.induct with
  | case1 tree nodes hcond ih =>
    rw [remove_leafs, if_pos hcond]
    exact ih
  | case2 tree nodes hcond =>
    rw [remove_leafs, if_neg hcond]
    push_neg at hcond
    exact hcond.1

/- ------------------------------------------------------------------ -/
/- qbe_tree: the traversal (claims C4, C5, C6, C10). -/

/-- A work-queue item `(parent, parent_edge, v, v_edge)`; the root is seeded
as `(None, None, start, None)`. -/
abbrev QItem := Option String × Option String × String × Option String

/-- Python truthiness of the optional strings tested by
`all((parent, parent_edge, v, v_edge))`: `None` and the empty string are
falsy. -/
def truthyO : Option String → Bool
  | none => false
  | some s => s != ""

/-- The preorder tree update: record the traversed edge under the parent and
mirror it under the visited node, creating empty lists as needed and
skipping duplicates. -/
def treeAdd (tree : Graph) (p pe v ve : String) : Graph :=
  appendEdge (ensureKey (appendEdge (ensureKey tree p) p (pe, v, ve)) v) v
    (ve, p, pe)

/-- The guard `all((parent, parent_edge, v, v_edge))` followed by the
preorder tree update: with any component falsy (None or the empty string)
the tree is left unchanged, otherwise both directions of the traversed edge
are recorded. -/
def treeAddIf (tree : Graph) (parent parent_edge : Option String)
    (v : String) (v_edge : Option String) : Graph :=
  if truthyO parent && truthyO parent_edge && (v != "") && truthyO v_edge then
    match parent, parent_edge, v_edge with
    | some p, some pe, some ve => treeAdd tree p pe v ve
    | _, _, _ => tree
  else tree

/-- The `while len(to_visit) != 0 and nodes:` loop of `qbe_tree`.  The
deque is appended and popped on the same side, so it behaves as a stack;
it is modelled with its top at the list head, which is why a node's edges
are pushed in reverse.  `graph[v]` on a node absent from the graph raises
`KeyError`, modelled as the error result. -/
def qbe_tree_loop (graph : Graph) (stack : List QItem)
    (nodes visited : List String) (tree : Graph) :
    Except String (Graph × List String) :=
  match stack with
  | [] => .ok (tree, nodes)
  | (parent, parent_edge, v, v_edge) :: rest =>
    if nodes = [] then .ok (tree, nodes)
    else
      if hsome : (lookupG graph v).isSome then
        if hvis : v ∉ visited ∧ 1 < ((lookupG graph v).get hsome).length then
          qbe_tree_loop graph
            ((((lookupG graph v).get hsome).map
                (fun e => (some v, some e.1, e.2.1, some e.2.2))).reverse
              ++ rest)
            (nodes.erase v) (v :: visited)
            (treeAddIf tree parent parent_edge v v_edge)
        else qbe_tree_loop graph rest (nodes.erase v) visited tree
      else .error ("KeyError: " ++ v)
termination_by
  (((graph.map Prod.fst).toFinset \ visited.toFinset).card, stack.length)
decreasing_by
  · apply Prod.Lex.left
    have hvk : v ∈ (graph.map Prod.fst) := by
      rcases Option.isSome_iff_exists.mp hsome with ⟨l, hl⟩
      exact List.mem_map_of_mem _ (mem_of_lookupG_eq_some hl)
    rw [List.toFinset_cons]
    apply Finset.card_lt_card
    have hsub : (graph.map Prod.fst).toFinset \ insert v visited.toFinset ⊆
        (graph.map Prod.fst).toFinset \ visited.toFinset := by
      apply Finset.sdiff_subset_sdiff (Finset.Subset.refl _)
      exact Finset.subset_insert _ _
    refine (Finset.ssubset_iff_of_subset hsub).mpr ⟨v, ?_, ?_⟩
    · rw [Finset.mem_sdiff, List.mem_toFinset]
      exact ⟨hvk, fun hc => hvis.1 (List.mem_toFinset.mp hc)⟩
    · rw [Finset.mem_sdiff]
      intro hcontra
      exact hcontra.2 (Finset.mem_insert_self _ _)
  · apply Prod.Lex.right
    exact Nat.lt_succ_self _

/-- The traversal phase of `qbe_tree` with a supplied root: the queue is
seeded with `(None, None, start, None)`, visited starts empty and the tree
empty.  Returns the working tree and the leftover required nodes. -/
def qbe_tree_traverse (graph : Graph) (nodes : List String) (root : String) :
    Except String (Graph × List String) :=
  qbe_tree_loop graph [(none, none, root, none)] nodes [] []

/-- `qbe_tree` with a supplied (truthy) root: traverse, then prune leaves
against the original node list (`cnodes`), and report whether the required
list was emptied.  The source's falsy-root branch draws a random start
from `nodes` and is not modelled; every claim and caller below supplies the
root. -/
def qbe_tree (graph : Graph) (nodes : List String) (root : String) :
    Except String (Graph × Bool) :=
  match qbe_tree_traverse graph nodes root with
  | .error e => .error e
  | .ok (tree, nodesLeft) => .ok (remove_leafs tree nodes, nodesLeft.isEmpty)

/- Entry-level elimination lemmas for the tree-update operations. -/

theorem mem_ensureKey_entry {t : Graph} {k : String}
    {q : String × List Edge} (h : q ∈ ensureKey t k) :
    q ∈ t ∨ q = (k, []) := by
  unfold ensureKey at h
  cases hhk : hasKey t k with
  | true =>
    rw [hhk] at h
    simp only [if_true] at h
    exact Or.inl h
  | false =>
    rw [hhk] at h
    simp only [Bool.false_eq_true, if_false] at h
    rcases List.mem_append.mp h with h2 | h2
    · exact Or.inl h2
    · exact Or.inr (List.mem_singleton.mp h2)

theorem mem_appendEdge_entry {t : Graph} {k : String} {e : Edge}
    {q : String × List Edge} (h : q ∈ appendEdge t k e) :
    ∃ q2 ∈ t, q.1 = q2.1 ∧
      (q.2 = q2.2 ∨ (e ∉ q2.2 ∧ q.2 = q2.2 ++ [e])) := by
  induction t with
  | nil => cases h
  | cons p rest ih =>
    by_cases hp : p.1 = k
    · simp only [appendEdge, if_pos hp] at h
      rcases List.mem_cons.mp h with h2 | h2
      · subst h2
        by_cases hmem : e ∈ p.2
        · exact ⟨p, List.mem_cons_self _ _, rfl, Or.inl (by simp [hmem])⟩
        · exact ⟨p, List.mem_cons_self _ _, rfl, Or.inr ⟨hmem, by simp [hmem]⟩⟩
      · exact ⟨q, List.mem_cons_of_mem _ h2, rfl, Or.inl rfl⟩
    · simp only [appendEdge, if_neg hp] at h
      rcases List.mem_cons.mp h with h2 | h2
      · subst h2
        exact ⟨q, List.mem_cons_self _ _, rfl, Or.inl rfl⟩
      · rcases ih h2 with ⟨q2, hq2, hfst, hrel⟩
        exact ⟨q2, List.mem_cons_of_mem _ hq2, hfst, hrel⟩

/- Invariants of the traversal tree (claims C5 and C6). -/

/-- Entity `k` is a graph key with at least two graph edges — the gate
`len(graph[v]) > 1` of the traversal. -/
def DegOK (graph : Graph) (k : String) : Prop :=
  ∃ l, lookupG graph k = some l ∧ 1 < l.length

/-- Well-formedness of one working-tree entry: its key passed the degree
gate, its edge list is duplicate-free, and every recorded neighbor also
passed the degree gate. -/
def TreeEntryOK (graph : Graph) (q : String × List Edge) : Prop :=
  (DegOK graph q.1 ∧ q.2.Nodup) ∧ ∀ e ∈ q.2, DegOK graph e.2.1

/-- All entries of the working tree are well-formed. -/
def TreeInv (graph tree : Graph) : Prop :=
  ∀ q ∈ tree, TreeEntryOK graph q

theorem TreeEntryOK_appendEdge {graph t : Graph} {k : String} {e : Edge}
    (ht : TreeInv graph t) (hnew : DegOK graph e.2.1) :
    TreeInv graph (appendEdge t k e) := by
  intro q hq
  rcases mem_appendEdge_entry hq with ⟨q2, hq2, hfst, hrel⟩
  have h2 := ht q2 hq2
  refine ⟨⟨hfst ▸ h2.1.1, ?_⟩, ?_⟩
  · rcases hrel with h3 | ⟨hnm, h3⟩
    · exact h3 ▸ h2.1.2
    · rw [h3, List.nodup_append]
      exact ⟨h2.1.2, List.nodup_singleton _, by
        intro a ha hb
        rw [List.mem_singleton] at hb
        exact hnm (hb ▸ ha)⟩
  · intro e2 he2
    rcases hrel with h3 | ⟨_, h3⟩
    · exact h2.2 e2 (h3 ▸ he2)
    · rw [h3] at he2
      rcases List.mem_append.mp he2 with h4 | h4
      · exact h2.2 e2 h4
      · rw [List.mem_singleton] at h4
        exact h4 ▸ hnew

theorem TreeEntryOK_ensureKey {graph t : Graph} {k : String}
    (ht : TreeInv graph t) (hkey : DegOK graph k) :
    TreeInv graph (ensureKey t k) := by
  intro q hq
  rcases mem_ensureKey_entry hq with h | h
  · exact ht q h
  · subst h
    exact ⟨⟨hkey, List.nodup_nil⟩, by intro e he; cases he⟩

theorem treeAdd_TreeInv {graph tree : Graph} {p pe v ve : String}
    (hp : DegOK graph p) (hv : DegOK graph v) (ht : TreeInv graph tree) :
    TreeInv graph (treeAdd tree p pe v ve) := by
  unfold treeAdd
  exact TreeEntryOK_appendEdge
    (TreeEntryOK_ensureKey
      (TreeEntryOK_appendEdge (TreeEntryOK_ensureKey ht hp) hv) hv) hp

def StackInv (graph : Graph) (stack : List QItem) : Prop :=
  ∀ it ∈ stack, ∀ p, it.1 = some p → DegOK graph p

theorem treeAddIf_TreeInv {graph tree : Graph} {parent parent_edge : Option String}
    {v : String} {v_edge : Option String}
    (hp : ∀ p, parent = some p → DegOK graph p)
    (hv : DegOK graph v) (ht : TreeInv graph tree) :
    TreeInv graph (treeAddIf tree parent parent_edge v v_edge) := by
  unfold treeAddIf
  by_cases hcond : (truthyO parent && truthyO parent_edge && (v != "") &&
      truthyO v_edge) = true
  · rw [if_pos hcond]
    cases parent with
    | none => simp [truthyO] at hcond
    | some p2 =>
      cases parent_edge with
      | none => simp [truthyO] at hcond
      | some pe2 =>
        cases v_edge with
        | none => simp [truthyO] at hcond
        | some ve2 => exact treeAdd_TreeInv (hp p2 rfl) hv ht
  · rw [if_neg hcond]
    exact ht

theorem qbe_tree_loop_inv (graph : Graph) (stack : List QItem)
    (nodes visited : List String) (tree : Graph) :
    StackInv graph stack → TreeInv graph tree →
    ∀ t ns, qbe_tree_loop graph stack nodes visited tree = .ok (t, ns) →
    TreeInv graph t := by
  induction stack, nodes, visited, tree using qbe_tree_loop.induct graph with
  | case1 nodes visited tree =>
    intro _ ht t ns h
    rw [qbe_tree_loop.eq_def] at h
    simp at h
    exact h.1 ▸ ht
  | case2 visited tree parent parent_edge v v_edge rest =>
    intro _ ht t ns h
    rw [qbe_tree_loop.eq_def] at h
    simp at h
    exact h.1 ▸ ht
  | case3 nodes visited tree parent parent_edge v v_edge rest hne hsome
      hvis ih =>
    intro hstack ht t ns h
    rw [qbe_tree_loop.eq_def] at h
    simp only [if_neg hne, dif_pos hsome, dif_pos hvis] at h
    have hvdeg : DegOK graph v :=
      ⟨(lookupG graph v).get hsome, (Option.some_get hsome).symm, hvis.2⟩
    apply ih _ _ t ns h
    · intro it hit p hp
      rcases List.mem_append.mp hit with h2 | h2
      · rw [List.mem_reverse] at h2
        rw [List.mem_map] at h2
        rcases h2 with ⟨e, _, heq⟩
        rw [← heq] at hp
        simp only [Option.some.injEq] at hp
        exact hp ▸ hvdeg
      · exact hstack it (List.mem_cons_of_mem _ h2) p hp
    · exact treeAddIf_TreeInv
        (fun p hp => hstack _ (List.mem_cons_self _ _) p hp) hvdeg ht
  | case4 nodes visited tree parent parent_edge v v_edge rest hne hsome
      hvis ih =>
    intro hstack ht t ns h
    rw [qbe_tree_loop.eq_def] at h
    simp only [if_neg hne, dif_pos hsome, dif_neg hvis] at h
    exact ih (fun it hit => hstack it (List.mem_cons_of_mem _ hit)) ht t ns h
  | case5 nodes visited tree parent parent_edge v v_edge rest hne hnsome =>
    intro _ _ t ns h
    rw [qbe_tree_loop.eq_def] at h
    simp only [if_neg hne, dif_neg hnsome] at h
    exact Except.noConfusion h

/- Pruning only shrinks the tree: every entry of the pruned tree stems from
an entry of the original with the same key and a subset of its edges. -/

/-- Every entry of `t1` has a matching entry in `t0` (same key, edges a
subset). -/
def EntryCover (t0 t1 : Graph) : Prop :=
  ∀ q ∈ t1, ∃ q2 ∈ t0, q.1 = q2.1 ∧ ∀ e ∈ q.2, e ∈ q2.2

theorem entryCover_refl (t : Graph) : EntryCover t t :=
  fun q hq => ⟨q, hq, rfl, fun _ he => he⟩

theorem entryCover_trans {t0 t1 t2 : Graph}
    (h01 : EntryCover t0 t1) (h12 : EntryCover t1 t2) : EntryCover t0 t2 := by
  intro q hq
  rcases h12 q hq with ⟨q1, hq1, hk1, he1⟩
  rcases h01 q1 hq1 with ⟨q0, hq0, hk0, he0⟩
  exact ⟨q0, hq0, hk1.trans hk0, fun e he => he0 e (he1 e he)⟩

theorem entryCover_delete_edge_leafs (t : Graph) (leaf : String) :
    EntryCover t (delete_edge_leafs t leaf) := by
  intro q hq
  unfold delete_edge_leafs at hq
  have hq2 := List.mem_of_mem_filter hq
  rw [List.mem_map] at hq2
  rcases hq2 with ⟨q2, hq2, heq⟩
  refine ⟨q2, hq2, ?_, ?_⟩
  · rw [← heq]
  · intro e he
    rw [← heq] at he
    exact pyRemoveScan_subset he

theorem entryCover_deleteLeafsPass (leafs : List String) (t : Graph) :
    EntryCover t (deleteLeafsPass t leafs) := by
  induction leafs generalizing t with
  | nil => exact entryCover_refl t
  | cons l rest ih =>
    unfold deleteLeafsPass
    rw [List.foldl_cons]
    by_cases hk : hasKey t l
    · simp only [hk, if_true]
      exact entryCover_trans (entryCover_delete_edge_leafs t l) (ih _)
    · simp only [hk, Bool.false_eq_true, if_false]
      exact ih t

theorem entryCover_remove_leafs (t : Graph) (nodes : List String) :
    EntryCover t (remove_leafs t nodes) := by
  induction t, nodes using remove_leafs.induct with
  | case1 tree nodes hcond ih =>
    rw [remove_leafs, if_pos hcond]
    exact entryCover_trans (entryCover_deleteLeafsPass _ tree) ih
  | case2 tree nodes hcond =>
    rw [remove_leafs, if_neg hcond]
    exact entryCover_refl tree

/-- Claim C8: the leaf-pruning phase terminates for every finite tree and
required node set — `remove_leafs` is a total function (its recursion is
well-founded on the shrinking tree), its guard's second disjunct
`iterations > len(tree) ^ 2` compares the never-incremented counter 0
against a bitwise exclusive-or and never fires, and the loop exits exactly
once a pass finds no further qualifying leaves. -/
theorem remove_leafs_terminates_no_leafs (tree : Graph)
    (nodes : List String) :
    get_leafs (remove_leafs tree nodes) nodes = [] :=
  remove_leafs_fixpoint tree nodes

/-- The traversal phase keeps the working-tree invariant: the initial stack
holds only the rootless seed item and the tree starts empty. -/
theorem qbe_tree_traverse_inv {graph : Graph} {nodes : List String}
    {root : String} {t : Graph} {ns : List String}
    (h : qbe_tree_traverse graph nodes root = .ok (t, ns)) :
    TreeInv graph t := by
  apply qbe_tree_loop_inv graph [(none, none, root, none)] nodes [] [] _ _ t ns h
  · intro it hit p hp
    rw [List.mem_singleton] at hit
    rw [hit] at hp
    cases hp
  · intro q hq
    cases hq

/- ------------------------------------------------------------------ -/
/- Claim C5. -/

/-- Claim C5 (amended): during the traversal a node is added to the working
tree only if it passed the degree gate — it is a graph key with at least
two graph edges — and a traversal edge already recorded for that node pair
in that direction is not recorded again (edge lists stay duplicate-free).
There is no exception for required members: a required node with fewer than
two graph edges is excluded from the working tree as well (required members
are protected only later, during pruning); see the counterexample. -/
theorem qbe_tree_traverse_degree_gate {graph : Graph} {nodes : List String}
    {root : String} {t : Graph} {ns : List String}
    (h : qbe_tree_traverse graph nodes root = .ok (t, ns)) :
    ∀ q ∈ t, DegOK graph q.1 ∧ q.2.Nodup := by
  intro q hq
  have h2 := qbe_tree_traverse_inv h q hq
  exact ⟨h2.1.1, h2.1.2⟩

/-- Triangle graph over "T.A", "T.B", "T.C": every node has two edges. -/
def triG : Graph :=
  [("T.A", [("a1", "T.B", "b1"), ("a2", "T.C", "c2")]),
   ("T.B", [("b1", "T.A", "a1"), ("b2", "T.C", "c1")]),
   ("T.C", [("c1", "T.B", "b2"), ("c2", "T.A", "a2")])]

/-- Witness for C5's amended theorem: the traversal of `triG` from "T.A"
with required nodes "T.A", "T.B" records entry "T.C", which has two graph
edges and a duplicate-free edge list. -/
theorem qbe_tree_traverse_degree_gate_witness :
    DegOK triG "T.C" ∧ [("c2", "T.A", "a2"), ("c1", "T.B", "b2")].Nodup :=
  qbe_tree_traverse_degree_gate
    (show qbe_tree_traverse triG ["T.A", "T.B"] "T.A" =
        .ok ([("T.A", [("a2", "T.C", "c2")]),
              ("T.C", [("c2", "T.A", "a2"), ("c1", "T.B", "b2")]),
              ("T.B", [("b2", "T.C", "c1")])], []) by
      simp [qbe_tree_traverse, qbe_tree_loop, lookupG, treeAddIf, treeAdd,
        appendEdge, ensureKey, hasKey, truthyO, List.erase])
    ("T.C", [("c2", "T.A", "a2"), ("c1", "T.B", "b2")]) (by simp)

/-- Graph with a degree-1 node "X" hanging off "A". -/
def c5G : Graph :=
  [("A", [("f", "X", "g"), ("f2", "B", "g2")]),
   ("X", [("g", "A", "f")]),
   ("B", [("g2", "A", "f2")])]

/-- Counterexample to claim C5 as stated: "X" is an explicit required
member and is traversed — the leftover required list comes back empty — yet
with only one graph edge it is not added to the working tree, which comes
back empty (no key at all, in particular no "X"). -/
theorem qbe_tree_required_leaf_excluded :
    qbe_tree_traverse c5G ["A", "X"] "A" = .ok ([], []) := by
  simp [qbe_tree_traverse, qbe_tree_loop, lookupG, treeAddIf, treeAdd,
    appendEdge, ensureKey, hasKey, truthyO, List.erase]

/- ------------------------------------------------------------------ -/
/- Claim C6. -/

/-- Claim C6: every tree returned by `qbe_tree` contains only nodes of the
input graph — each entry's key is a graph key and so is every neighbor
recorded in its edge list — and after pruning every entry that is not an
explicit required member has at least two recorded edges. -/
theorem qbe_tree_result_nodes {graph : Graph} {nodes : List String}
    {root : String} {t : Graph} {b : Bool}
    (h : qbe_tree graph nodes root = .ok (t, b)) :
    (∀ q ∈ t, hasKey graph q.1 = true ∧ ∀ e ∈ q.2, hasKey graph e.2.1 = true) ∧
      (∀ q ∈ t, q.1 ∈ nodes ∨ 2 ≤ q.2.length) := by
  unfold qbe_tree at h
  cases htr : qbe_tree_traverse graph nodes root with
  | error e =>
    rw [htr] at h
    cases h
  | ok pr =>
    obtain ⟨t0, ns⟩ := pr
    rw [htr] at h
    simp only [Except.ok.injEq, Prod.mk.injEq] at h
    obtain ⟨ht, _⟩ := h
    subst ht
    have hinv := qbe_tree_traverse_inv htr
    have hcover := entryCover_remove_leafs t0 nodes
    constructor
    · intro q hq
      rcases hcover q hq with ⟨q2, hq2, hk, hsub⟩
      have h2 := hinv q2 hq2
      constructor
      · rcases h2.1.1 with ⟨l, hl, _⟩
        rw [hk]
        unfold hasKey
        rw [hl]
        rfl
      · intro e he
        rcases h2.2 e (hsub e he) with ⟨l, hl, _⟩
        unfold hasKey
        rw [hl]
        rfl
    · intro q hq
      have hfix := remove_leafs_fixpoint t0 nodes
      unfold get_leafs at hfix
      rw [List.map_eq_nil_iff, List.filter_eq_nil_iff] at hfix
      have := hfix q hq
      simp only [Bool.and_eq_true, decide_eq_true_eq, not_and, not_not] at this
      by_cases hlen : q.2.length < 2
      · exact Or.inl (this hlen)
      · exact Or.inr (Nat.le_of_not_lt hlen)

/-- Witness for C6 at the triangle graph: entry "T.C" of the returned tree
is a graph key, and it is not required but keeps two recorded edges. -/
theorem qbe_tree_result_nodes_witness :
    (hasKey triG "T.C" = true ∧
      ∀ e ∈ [("c2", "T.A", "a2"), ("c1", "T.B", "b2")],
        hasKey triG e.2.1 = true) ∧
      ("T.C" ∈ ["T.A", "T.B"] ∨
        2 ≤ [("c2", "T.A", "a2"), ("c1", "T.B", "b2")].length) := by
  have heval : qbe_tree triG ["T.A", "T.B"] "T.A" =
      .ok ([("T.A", [("a2", "T.C", "c2")]),
            ("T.C", [("c2", "T.A", "a2"), ("c1", "T.B", "b2")]),
            ("T.B", [("b2", "T.C", "c1")])], true) := by
    simp [qbe_tree, qbe_tree_traverse, qbe_tree_loop, lookupG, treeAddIf,
      treeAdd, appendEdge, ensureKey, hasKey, truthyO, List.erase,
      remove_leafs, get_leafs, deleteLeafsPass, delete_edge_leafs,
      pyRemoveScan, eraseKey]
  exact ⟨(qbe_tree_result_nodes heval).1
      ("T.C", [("c2", "T.A", "a2"), ("c1", "T.B", "b2")]) (by simp),
    (qbe_tree_result_nodes heval).2
      ("T.C", [("c2", "T.A", "a2"), ("c1", "T.B", "b2")]) (by simp)⟩

/- ------------------------------------------------------------------ -/
/- Claims C4 and C10. -/

/-- Claim C4 (amended): when the supplied root is absent from the graph —
in particular when the graph is empty — `qbe_tree` does not return an empty
tree with `allReached = false`.  With an empty required set the loop never
runs and it returns the empty tree with `allReached = true`; with a
nonempty required set the first lookup `graph[v]` raises `KeyError`, which
propagates to the caller. -/
theorem qbe_tree_absent_root (graph : Graph) (nodes : List String)
    (root : String) (hroot : lookupG graph root = none) :
    qbe_tree graph nodes root =
      if nodes = [] then .ok ([], true)
      else .error ("KeyError: " ++ root) := by
  by_cases hn : nodes = []
  · subst hn
    simp only [if_pos rfl]
    simp [qbe_tree, qbe_tree_traverse, qbe_tree_loop, remove_leafs, get_leafs]
  · rw [if_neg hn]
    unfold qbe_tree qbe_tree_traverse
    rw [qbe_tree_loop.eq_def]
    simp [hn, hroot]

/-- Witness for C4's amended theorem on the empty graph. -/
theorem qbe_tree_absent_root_witness :
    qbe_tree ([] : Graph) ["A"] "A" =
      (if (["A"] : List String) = [] then Except.ok (([], true) : Graph × Bool)
        else .error ("KeyError: " ++ "A")) :=
  qbe_tree_absent_root [] ["A"] "A" rfl

/-- Counterexample to claim C4 as stated: on the empty graph with required
node "A" and root "A", `qbe_tree` raises `KeyError` instead of returning an
empty tree with `allReached = false`. -/
theorem qbe_tree_absent_root_raises :
    qbe_tree ([] : Graph) ["A"] "A" = .error ("KeyError: " ++ "A") := by
  simp [qbe_tree, qbe_tree_traverse, qbe_tree_loop, lookupG]

/-- Claim C10: with an empty required node set, `qbe_tree` performs no
traversal and returns the empty tree with `allReached = true`, for every
graph and every supplied root — present in the graph or not.  (The root
argument models a supplied, truthy root; with a falsy root the source
instead draws a random start from the required list.) -/
theorem qbe_tree_empty_required (graph : Graph) (root : String) :
    qbe_tree graph [] root = .ok ([], true) := by
  simp [qbe_tree, qbe_tree_traverse, qbe_tree_loop, remove_leafs, get_leafs]

/- ------------------------------------------------------------------ -/
/- Key uniqueness is preserved by the whole tree pipeline (used by the
   forest dedup argument of claim C7). -/

theorem nodupKeys_treeAdd {tree : Graph} (p pe v ve : String)
    (h : NodupKeys tree) : NodupKeys (treeAdd tree p pe v ve) :=
  nodupKeys_appendEdge _ _
    (nodupKeys_ensureKey _ (nodupKeys_appendEdge _ _ (nodupKeys_ensureKey _ h)))

theorem nodupKeys_treeAddIf {tree : Graph} (parent parent_edge : Option String)
    (v : String) (v_edge : Option String) (h : NodupKeys tree) :
    NodupKeys (treeAddIf tree parent parent_edge v v_edge) := by
  unfold treeAddIf
  by_cases hcond : (truthyO parent && truthyO parent_edge && (v != "") &&
      truthyO v_edge) = true
  · rw [if_pos hcond]
    cases parent with
    | none => exact h
    | some p2 =>
      cases parent_edge with
      | none => exact h
      | some pe2 =>
        cases v_edge with
        | none => exact h
        | some ve2 => exact nodupKeys_treeAdd _ _ _ _ h
  · rw [if_neg hcond]
    exact h

theorem qbe_tree_loop_nodupKeys (graph : Graph) (stack : List QItem)
    (nodes visited : List String) (tree : Graph) :
    NodupKeys tree →
    ∀ t ns, qbe_tree_loop graph stack nodes visited tree = .ok (t, ns) →
    NodupKeys t := by
  induction stack, nodes, visited, tree using qbe_tree_loop.induct graph with
  | case1 nodes visited tree =>
    intro ht t ns h
    rw [qbe_tree_loop.eq_def] at h
    simp at h
    exact h.1 ▸ ht
  | case2 visited tree parent parent_edge v v_edge rest =>
    intro ht t ns h
    rw [qbe_tree_loop.eq_def] at h
    simp at h
    exact h.1 ▸ ht
  | case3 nodes visited tree parent parent_edge v v_edge rest hne hsome
      hvis ih =>
    intro ht t ns h
    rw [qbe_tree_loop.eq_def] at h
    simp only [if_neg hne, dif_pos hsome, dif_pos hvis] at h
    exact ih (nodupKeys_treeAddIf _ _ _ _ ht) t ns h
  | case4 nodes visited tree parent parent_edge v v_edge rest hne hsome
      hvis ih =>
    intro ht t ns h
    rw [qbe_tree_loop.eq_def] at h
    simp only [if_neg hne, dif_pos hsome, dif_neg hvis] at h
    exact ih ht t ns h
  | case5 nodes visited tree parent parent_edge v v_edge rest hne hnsome =>
    intro _ t ns h
    rw [qbe_tree_loop.eq_def] at h
    simp only [if_neg hne, dif_neg hnsome] at h
    exact Except.noConfusion h

theorem nodupKeys_delete_edge_leafs {tree : Graph} (leaf : String)
    (h : NodupKeys tree) : NodupKeys (delete_edge_leafs tree leaf) := by
  unfold delete_edge_leafs
  apply nodupKeys_eraseKey
  unfold NodupKeys
  rw [map_scan_fst]
  exact h

theorem nodupKeys_deleteLeafsPass (leafs : List String) (tree : Graph)
    (h : NodupKeys tree) : NodupKeys (deleteLeafsPass tree leafs) := by
  induction leafs generalizing tree with
  | nil => exact h
  | cons l rest ih =>
    unfold deleteLeafsPass
    rw [List.foldl_cons]
    by_cases hk : hasKey tree l
    · simp only [hk, if_true]
      exact ih _ (nodupKeys_delete_edge_leafs _ h)
    · simp only [hk, Bool.false_eq_true, if_false]
      exact ih _ h

theorem nodupKeys_remove_leafs (tree : Graph) (nodes : List String)
    (h : NodupKeys tree) : NodupKeys (remove_leafs tree nodes) := by
  induction tree, nodes using remove_leafs.induct with
  | case1 tree nodes hcond ih =>
    rw [remove_leafs, if_pos hcond]
    exact ih (nodupKeys_deleteLeafsPass _ _ h)
  | case2 tree nodes hcond =>
    rw [remove_leafs, if_neg hcond]
    exact h

theorem qbe_tree_nodupKeys {graph : Graph} {nodes : List String}
    {root : String} {t : Graph} {b : Bool}
    (h : qbe_tree graph nodes root = .ok (t, b)) : NodupKeys t := by
  unfold qbe_tree at h
  cases htr : qbe_tree_traverse graph nodes root with
  | error e =>
    rw [htr] at h
    cases h
  | ok pr =>
    obtain ⟨t0, ns⟩ := pr
    rw [htr] at h
    simp only [Except.ok.injEq, Prod.mk.injEq] at h
    obtain ⟨ht, _⟩ := h
    subst ht
    exact nodupKeys_remove_leafs t0 nodes
      (qbe_tree_loop_nodupKeys graph _ nodes [] [] List.nodup_nil t0 ns htr)

/-- Python dict equality on trees: with duplicate-free keys on both sides,
two dicts are equal iff they have the same number of keys and every entry
of the first is found unchanged in the second (edge-list order matters,
key order does not). -/
def treeEqb (a b : Graph) : Bool :=
  a.length == b.length && a.all (fun p => lookupG b p.1 == some p.2)

theorem treeEqb_symm {a b : Graph} (hna : NodupKeys a) (hnb : NodupKeys b)
    (h : treeEqb a b = true) : treeEqb b a = true := by
  unfold treeEqb at h ⊢
  rw [Bool.and_eq_true] at h
  obtain ⟨hlen, hall⟩ := h
  rw [beq_iff_eq] at hlen
  rw [List.all_eq_true] at hall
  have hsub : (a.map Prod.fst) ⊆ (b.map Prod.fst) := by
    intro k hk
    rw [List.mem_map] at hk
    rcases hk with ⟨p, hp, hfst⟩
    have := hall p hp
    rw [beq_iff_eq] at this
    have hmem := mem_of_lookupG_eq_some this
    rw [← hfst]
    exact List.mem_map_of_mem _ hmem
  have hperm : (a.map Prod.fst).Perm (b.map Prod.fst) := by
    apply List.Subperm.perm_of_length_le (List.Nodup.subperm hna hsub)
    simp [hlen]
  have hsub2 : (b.map Prod.fst) ⊆ (a.map Prod.fst) := hperm.symm.subset
  rw [Bool.and_eq_true, beq_iff_eq, List.all_eq_true]
  refine ⟨hlen.symm, ?_⟩
  intro q hq
  rw [beq_iff_eq]
  have hqk : q.1 ∈ a.map Prod.fst := hsub2 (List.mem_map_of_mem _ hq)
  rw [List.mem_map] at hqk
  rcases hqk with ⟨p, hp, hfst⟩
  have hlp := hall p hp
  rw [beq_iff_eq] at hlp
  have hlq : lookupG b q.1 = some q.2 := lookupG_eq_some_of_mem hnb hq
  rw [hfst] at hlp
  rw [hlq] at hlp
  have hv : p.2 = q.2 := by
    injection hlp with h2
    exact h2.symm
  have := lookupG_eq_some_of_mem hna hp
  rw [hfst] at this
  rw [this, hv]

/- ------------------------------------------------------------------ -/
/- qbe_forest (claim C7). -/

/-- One iteration of `for node, edges in graph.items()` in `qbe_forest`:
run `qbe_tree` rooted at the entry's key on a fresh copy of the node list,
keep the tree when all required nodes were reached and no structurally
equal tree is already collected.  Any `KeyError` escaping `qbe_tree` aborts
the whole loop. -/
def qbe_forest_step (graph : Graph) (nodes : List String)
    (acc : Except String (List Graph)) (p : String × List Edge) :
    Except String (List Graph) :=
  match acc with
  | .error e => .error e
  | .ok forest =>
    match qbe_tree graph nodes p.1 with
    | .error e => .error e
    | .ok (tree, are_all) =>
      if are_all && !(forest.any (fun u => treeEqb tree u)) then
        .ok (forest ++ [tree])
      else .ok forest

/-- `qbe_forest`: try every graph node as root, keep the successful distinct
trees, and sort ascending by node count (Python's stable `sorted` with a
length comparator, modelled by a stable merge sort on the same order). -/
def qbe_forest (graph : Graph) (nodes : List String) :
    Except String (List Graph) :=
  match graph.foldl (qbe_forest_step graph nodes) (.ok []) with
  | .error e => .error e
  | .ok forest => .ok (forest.mergeSort (fun x y => decide (x.length ≤ y.length)))

/-- Generic preservation of a predicate along a left fold (any carrier). -/
theorem foldl_preserveE {α β : Type} (P : β → Prop) (f : β → α → β)
    (l : List α) (h : ∀ x ∈ l, ∀ b, P b → P (f b x)) {g : β} (hg : P g) :
    P (l.foldl f g) := by
  induction l generalizing g with
  | nil => exact hg
  | cons x xs ih =>
    exact ih (fun y hy b hb => h y (List.mem_cons_of_mem _ hy) b hb)
      (h x (List.mem_cons_self _ _) g hg)

/-- The collected forest before sorting: every tree came from a root that is
a graph key and reached all required nodes; the trees are pairwise distinct
in both orders; all have duplicate-free keys. -/
def ForestInv (graph : Graph) (nodes : List String) (f : List Graph) : Prop :=
  (∀ t ∈ f, ∃ root, hasKey graph root = true ∧
      qbe_tree graph nodes root = .ok (t, true)) ∧
    List.Pairwise (fun a b => treeEqb a b = false ∧ treeEqb b a = false) f ∧
    (∀ t ∈ f, NodupKeys t)

theorem qbe_forest_fold_inv (graph : Graph) (nodes : List String) :
    ∀ forest, graph.foldl (qbe_forest_step graph nodes) (.ok []) = .ok forest →
      ForestInv graph nodes forest := by
  have hstep : ∀ p ∈ graph, ∀ acc,
      (∀ f, acc = .ok f → ForestInv graph nodes f) →
      (∀ f, qbe_forest_step graph nodes acc p = .ok f →
        ForestInv graph nodes f) := by
    intro p hp acc hacc f hf
    unfold qbe_forest_step at hf
    cases acc with
    | error e => exact Except.noConfusion hf
    | ok f0 =>
      have hinv := hacc f0 rfl
      cases htree : qbe_tree graph nodes p.1 with
      | error e =>
        rw [htree] at hf
        exact Except.noConfusion hf
      | ok pr =>
        obtain ⟨tree, are_all⟩ := pr
        rw [htree] at hf
        dsimp only at hf
        by_cases hcond : (are_all && !(f0.any (fun u => treeEqb tree u))) = true
        · rw [if_pos hcond] at hf
          rw [Bool.and_eq_true, Bool.not_eq_eq_eq_not, Bool.not_true] at hcond
          obtain ⟨hall, hany⟩ := hcond
          subst hall
          have hnodup : NodupKeys tree := qbe_tree_nodupKeys htree
          have hnew : ∀ u ∈ f0, treeEqb tree u = false := by
            intro u hu
            rcases Bool.eq_false_iff.mp hany with _
            by_cases h2 : treeEqb tree u = true
            · exfalso
              rw [List.any_eq_false] at hany
              exact absurd h2 (by simpa using hany u hu)
            · exact Bool.eq_false_iff.mpr h2
          have hfeq : f = f0 ++ [tree] := by
            injection hf with h2
            exact h2.symm
          subst hfeq
          refine ⟨?_, ?_, ?_⟩
          · intro t ht
            rcases List.mem_append.mp ht with h2 | h2
            · exact hinv.1 t h2
            · rw [List.mem_singleton] at h2
              subst h2
              exact ⟨p.1, hasKey_iff.mpr ⟨p, hp, rfl⟩, htree⟩
          · rw [List.pairwise_append]
            refine ⟨hinv.2.1, List.pairwise_singleton _ _, ?_⟩
            intro u hu t ht
            rw [List.mem_singleton] at ht
            subst ht
            have h1 : treeEqb t u = false := hnew u hu
            refine ⟨?_, h1⟩
            by_cases h2 : treeEqb u t = true
            · exfalso
              have := treeEqb_symm (hinv.2.2 u hu) (qbe_tree_nodupKeys htree) h2
              rw [this] at h1
              exact Bool.noConfusion h1
            · exact Bool.eq_false_iff.mpr h2
          · intro t ht
            rcases List.mem_append.mp ht with h2 | h2
            · exact hinv.2.2 t h2
            · rw [List.mem_singleton] at h2
              exact h2 ▸ hnodup
        · rw [if_neg hcond] at hf
          injection hf with h2
          exact h2 ▸ hinv
  intro forest
  refine foldl_preserveE
    (fun acc => ∀ f, acc = .ok f → ForestInv graph nodes f)
    (qbe_forest_step graph nodes) graph hstep ?_ forest
  intro f hf
  injection hf with h2
  refine h2 ▸ ⟨?_, List.Pairwise.nil, ?_⟩
  · intro t ht
    cases ht
  · intro t ht
    cases ht

/-- Claim C7: every tree returned by `qbe_forest` came from an extraction
(rooted at some graph key) that reached every required node; the returned
trees are pairwise structurally distinct (in the Python dict-equality
sense, both orders); and the returned list is sorted so node counts are
monotonically non-decreasing. -/
theorem qbe_forest_spec {graph : Graph} {nodes : List String}
    {forest : List Graph} (h : qbe_forest graph nodes = .ok forest) :
    (∀ t ∈ forest, ∃ root, hasKey graph root = true ∧
        qbe_tree graph nodes root = .ok (t, true)) ∧
      List.Pairwise (fun a b => treeEqb a b = false ∧ treeEqb b a = false)
        forest ∧
      List.Pairwise (fun a b => a.length ≤ b.length) forest := by
  unfold qbe_forest at h
  cases hfold : graph.foldl (qbe_forest_step graph nodes) (.ok []) with
  | error e =>
    rw [hfold] at h
    cases h
  | ok f0 =>
    rw [hfold] at h
    dsimp only at h
    injection h with h2
    subst h2
    have hinv := qbe_forest_fold_inv graph nodes f0 hfold
    have hperm := List.mergeSort_perm f0 (fun x y => decide (x.length ≤ y.length))
    refine ⟨?_, ?_, ?_⟩
    · intro t ht
      exact hinv.1 t (hperm.subset ht)
    · exact (List.Perm.pairwise_iff (fun hr => ⟨hr.2, hr.1⟩) hperm).mpr hinv.2.1
    · have hs := @List.sorted_mergeSort Graph
        (fun x y => decide (x.length ≤ y.length))
        (fun a b c hab hbc => by
          simp only [decide_eq_true_eq] at hab hbc ⊢
          exact Nat.le_trans hab hbc)
        (fun a b => by
          rw [Bool.or_eq_true]
          simp only [decide_eq_true_eq]
          exact Nat.le_total _ _)
        f0
      exact hs.imp (by
        intro a b hab
        simpa using hab)

/-- One-entity graph with two outgoing edges, used as the forest witness. -/
def forestWitnessGraph : Graph := [("A", [("f", "B", "g"), ("f2", "C", "g2")])]

/-- Witness for C7: on `forestWitnessGraph` with required node "A", the only
root reaches the required set and the forest is the one-element list
holding the empty pruned tree. -/
theorem qbe_forest_spec_witness :
    (∃ root, hasKey forestWitnessGraph root = true ∧
        qbe_tree forestWitnessGraph ["A"] root = .ok ([], true)) ∧
      List.Pairwise (fun a b => treeEqb a b = false ∧ treeEqb b a = false)
        [([] : Graph)] ∧
      List.Pairwise (fun (a b : Graph) => a.length ≤ b.length)
        [([] : Graph)] := by
  have heval : qbe_forest forestWitnessGraph ["A"] = .ok [[]] := by
    simp [qbe_forest, qbe_forest_step, qbe_tree, qbe_tree_traverse,
      qbe_tree_loop, lookupG, treeAddIf, treeAdd, appendEdge, ensureKey,
      hasKey, truthyO, List.erase, remove_leafs, get_leafs, deleteLeafsPass,
      delete_edge_leafs, pyRemoveScan, eraseKey, treeEqb, forestWitnessGraph]
  exact ⟨(qbe_forest_spec heval).1 [] (by simp),
    (qbe_forest_spec heval).2.1, (qbe_forest_spec heval).2.2⟩

/- ------------------------------------------------------------------ -/
/- autocomplete_graph (claim C9). -/

/-- `itertools.combinations(l, 2)`: ordered pairs of positions. -/
def combinations2 : List String → List (String × String)
  | [] => []
  | x :: xs => xs.map (fun y => (x, y)) ++ combinations2 xs

/-- `find_all_paths` as reached from `autocomplete_graph`: the graph handed
over is `qbe_graph`'s adjacency, whose values are lists of triples, while
`find_all_paths` iterates `graph[start].items()`.  A Python list has no
`.items()`, so the first successful lookup raises `AttributeError`; only
the two branches that never touch the edge value return normally. -/
def find_all_paths_on_lists (g : Graph) (start finish : String)
    (path : List String) : Except String (List (List String)) :=
  if start = finish then .ok [path ++ [start]]
  else
    match lookupG g start with
    | none => .ok []
    | some _ => .error "AttributeError"

/-- `list.remove`: drop the first occurrence, `ValueError` when absent. -/
def pyListRemove (l : List String) (x : String) :
    Except String (List String) :=
  if x ∈ l then .ok (l.erase x) else .error "ValueError"

/-- `for model in current_models: path.remove(model)`. -/
def stripModels (models : List String) (path : List String) :
    Except String (List String) :=
  models.foldlM (fun p m => pyListRemove p m) path

/-- One `(c, d)` iteration of `autocomplete_graph`: enumerate the paths,
keep those containing every selected entity, strip the selected entities,
and append when not already collected. -/
def autocompletePair (graph : Graph) (models : List String)
    (acc : List (List String)) (cd : String × String) :
    Except String (List (List String)) := do
  let paths ← find_all_paths_on_lists graph cd.1 cd.2 []
  paths.foldlM (fun acc2 path =>
    if models.all (fun x => decide (x ∈ path)) then do
      let stripped ← stripModels models path
      if stripped ∈ acc2 then pure acc2 else pure (acc2 ++ [stripped])
    else pure acc2) acc

/-- `autocomplete_graph`: `None` for fewer than two selected entities,
otherwise the deduplicated suggestion lists sorted by length.  The schema
argument feeds `qbe_graph` exactly as `qbe_models(admin_site)` does in the
source. -/
def autocomplete_graph (schema : Schema) (current_models : List String)
    (directed : Bool) : Except String (Option (List (List String))) :=
  if current_models.length < 2 then .ok none
  else do
    let valid ← (combinations2 current_models).foldlM
      (autocompletePair (qbe_graph schema directed) current_models) []
    pure (some (valid.mergeSort (fun x y => decide (x.length ≤ y.length))))

/-- Two entities joined by a foreign key — the smallest schema on which an
autocomplete suggestion could exist. -/
def acSchema : Schema :=
  [("App",
    [("A", [{ source := "b",
              target := { name := "App", model := "B", field := "id",
                          through := none } }]),
     ("B", [])])]

/-- Claim C9 (code bug): with fewer than two selected entities
`autocomplete_graph` does return the distinguished no-suggestion value
`None`; but with two (or more) selected entities that are connected in the
graph it raises `AttributeError` instead of returning a list, because
`find_all_paths` iterates `graph[start].items()` on the list-valued
adjacency produced by `qbe_graph`.  Evaluated here on the two-entity
foreign-key schema. -/
theorem autocomplete_graph_attribute_error :
    autocomplete_graph acSchema ["App.A", "App.B"] false =
        .error "AttributeError" ∧
      autocomplete_graph acSchema ["App.A"] false = .ok none := by
  constructor
  · rfl
  · rfl
